import Mathlib

/-!
Verification of the CLIP example (tokenizer and model) against its
natural-language specification.

The development shallowly embeds the two source files:

* `clip/tokenizer.py` — the byte-pair-encoding tokenizer: the coarse
  splitting pattern, the greedy merge loop, its memoization cache and the
  final vocabulary lookup.  All of these definitions are executable.
* `clip/model.py` — the text encoder pooling, the joint model forward
  (projection, L2 normalization, logit matrix, contrastive loss) and the
  shape semantics of the position-embedding addition.  Neural-network
  weights and the encoder stacks are abstracted as functions; scalar
  arithmetic is modelled over the exact reals.

Machine integers do not overflow anywhere in the modelled code (Python
integers are unbounded), so `Nat` is used throughout.
-/

/-! ## Generic list helpers -/

theorem getD_map_of_lt {α β : Type _} (f : α → β) (l : List α) (i : Nat)
    (h : i < l.length) (d : α) (d' : β) :
    (l.map f).getD i d' = f (l.getD i d) := by
  induction l generalizing i with
  | nil => simp at h
  | cons a t ih =>
    cases i with
    | zero => simp [List.getD]
    | succ n =>
      simp only [List.length_cons, Nat.succ_lt_succ_iff] at h
      simpa [List.getD] using ih n h

theorem getD_zip_of_lt {α β : Type _} (A : List α) (B : List β) (i : Nat)
    (hA : i < A.length) (hB : i < B.length) (dA : α) (dB : β) :
    (A.zip B).getD i (dA, dB) = (A.getD i dA, B.getD i dB) := by
  induction A generalizing B i with
  | nil => simp at hA
  | cons a t ih =>
    cases B with
    | nil => simp at hB
    | cons b u =>
      cases i with
      | zero => simp [List.getD]
      | succ n =>
        simp only [List.length_cons, Nat.succ_lt_succ_iff] at hA hB
        simpa [List.getD] using ih u n hA hB

theorem getD_range'_of_lt : ∀ (n s i : Nat), i < n → (List.range' s n).getD i 0 = s + i := by
  intro n
  induction n with
  | zero => intro s i h; omega
  | succ m ih =>
    intro s i h
    rw [List.range'_succ]
    cases i with
    | zero => simp [List.getD]
    | succ k =>
      have hk : k < m := by omega
      simp only [List.getD_cons_succ]
      rw [ih (s + 1) k hk]
      omega

theorem getD_range_of_lt (n i : Nat) (h : i < n) : (List.range n).getD i 0 = i := by
  rw [List.range_eq_range', getD_range'_of_lt n 0 i h]
  omega

theorem dropWhile_length_le {α : Type _} (p : α → Bool) :
    ∀ l : List α, (l.dropWhile p).length ≤ l.length := by
  intro l
  induction l with
  | nil => simp [List.dropWhile]
  | cons a t ih =>
    rw [List.dropWhile]
    cases p a
    · simp
    · exact Nat.le_trans ih (by simp)

theorem dropWhile_all_nil {α : Type _} (p : α → Bool) :
    ∀ l : List α, (∀ x ∈ l, p x = true) → l.dropWhile p = [] := by
  intro l h
  induction l with
  | nil => simp [List.dropWhile]
  | cons a t ih =>
    rw [List.dropWhile]
    rw [h a (by simp)]
    exact ih (fun x hx => h x (by simp [hx]))

/-! ## Tokenizer embedding (clip/tokenizer.py)

Character classes are the ASCII fragment of the regex classes used in the
source pattern: `\s`, `\p{L}` and `\p{N}` are modelled by `Char.isWhitespace`,
`Char.isAlpha` and `Char.isDigit`.  All concrete inputs appearing below are
ASCII, where the two notions coincide.  The pipeline lower-cases its input
before matching, so the case-insensitivity flag of the source pattern is
invisible to the matcher and the literal alternatives are kept lower-case.
-/

/-- The beginning-of-text special marker. -/
def bosStr : String := "<|startoftext|>"

/-- The end-of-text special marker. -/
def eosStr : String := "<|endoftext|>"

/-- The end-of-word marker appended to the last character of a coarse token. -/
def endWord : String := "</w>"

/-- The apostrophe character used by the contraction alternatives. -/
def apos : Char := Char.ofNat 39

/-- The character class matched by the final alternative of the pattern:
neither whitespace, nor letter, nor digit. -/
def isOther (c : Char) : Bool := !(c.isWhitespace || c.isAlpha || c.isDigit)

/-- Worker for `collapseWs`: the flag records whether the previous
character belonged to a whitespace run already replaced by a space. -/
def collapseAux : Bool → List Char → List Char
  | _, [] => []
  | prevWs, c :: cs =>
    if c.isWhitespace then
      if prevWs then collapseAux true cs else ' ' :: collapseAux true cs
    else c :: collapseAux false cs

/-- Replace each maximal whitespace run by a single space; embeds
the substitution of whitespace runs performed at the start of `tokenize`. -/
def collapseWs (s : List Char) : List Char := collapseAux false s

/-- Lower-casing followed by whitespace collapsing, as in `tokenize`
(the source lower-cases first, then substitutes whitespace runs). -/
def cleanText (s : String) : List Char := collapseWs (s.data.map Char.toLower)

/-- Literal alternatives of the coarse-split pattern, in priority order:
the two special markers, then the seven contraction suffixes. -/
def litAlternatives : List (List Char) :=
  [bosStr.data, eosStr.data,
   [apos, 's'], [apos, 't'], [apos, 'r', 'e'], [apos, 'v', 'e'],
   [apos, 'm'], [apos, 'l', 'l'], [apos, 'd']]

/-- Whether `lit` is an initial segment of `s`. -/
def litMatches : List Char → List Char → Bool
  | [], _ => true
  | _ :: _, [] => false
  | a :: as, b :: bs => a = b && litMatches as bs

/-- Try the literal alternatives in order at the current position. -/
def tryLits : List (List Char) → List Char → Option (List Char × List Char)
  | [], _ => none
  | lit :: ls, s =>
    if litMatches lit s then some (lit, s.drop lit.length) else tryLits ls s

/-- The non-literal alternatives of the pattern, tried at the current
position: a maximal letter run, then a single digit, then a maximal run of
other characters. -/
def matchClasses : List Char → Option (List Char × List Char)
  | [] => none
  | c :: cs =>
    if c.isAlpha then
      some ((c :: cs).takeWhile Char.isAlpha, (c :: cs).dropWhile Char.isAlpha)
    else if c.isDigit then some ([c], cs)
    else if isOther c then
      some ((c :: cs).takeWhile isOther, (c :: cs).dropWhile isOther)
    else none

/-- One attempt of the coarse-split pattern at the current position, trying
the alternatives in the priority order of the source regex: literal markers
and contractions first, then the character-class alternatives. -/
def matchAt (s : List Char) : Option (List Char × List Char) :=
  match tryLits litAlternatives s with
  | some r => some r
  | none => matchClasses s

/-- The scan underlying `findall`: emit the match at the current position,
or skip one character if no alternative matches.  Every emitted token is
nonempty, so a fuel equal to the input length suffices. -/
def findTokens : Nat → List Char → List (List Char)
  | 0, _ => []
  | fuel + 1, s =>
    match matchAt s with
    | some tr => tr.1 :: findTokens fuel tr.2
    | none =>
      match s with
      | [] => []
      | _ :: cs => findTokens fuel cs

/-- All coarse tokens of a character sequence, as strings. -/
def findall (s : List Char) : List String :=
  (findTokens s.length s).map (fun t => String.mk t)

/-- A value stored in the memoization cache.  The source is dynamically
typed: the constructor seeds the cache with each special token mapped to
itself as a plain string (`Sum.inl`), while `bpe` stores lists of
sub-tokens (`Sum.inr`).  `tokenize` iterates whatever it receives, which
for a string means iterating its characters. -/
def CacheVal : Type := String ⊕ List String

instance : DecidableEq CacheVal := by
  unfold CacheVal
  infer_instance

/-- Tokenizer state: the merge-rank table, the vocabulary and the mutable
memoization cache, as association lists (most recent entry first). -/
structure TkState where
  bpeRanks : List ((String × String) × Nat)
  vocab : List (String × Nat)
  cache : List (String × CacheVal)

/-- `CLIPTokenizer.__init__`: the cache is pre-seeded with the two special
tokens, each mapped to itself as a plain string. -/
def initTk (ranks : List ((String × String) × Nat)) (vocab : List (String × Nat)) : TkState :=
  { bpeRanks := ranks
    vocab := vocab
    cache := [(bosStr, Sum.inl bosStr), (eosStr, Sum.inl eosStr)] }

/-- First-match lookup in the memoization cache. -/
def cacheLookup (c : List (String × CacheVal)) (s : String) : Option CacheVal :=
  (c.find? (fun e => e.1 == s)).map (fun e => e.2)

/-- `self.bpe_ranks.get(pair, ...)`: rank of a merge pair, if assigned. -/
def rankOf (ranks : List ((String × String) × Nat)) (p : String × String) : Option Nat :=
  (ranks.find? (fun e => e.1 == p)).map (fun e => e.2)

/-- First-match lookup in the vocabulary (`self.vocab[t]`). -/
def vocabLookup (tk : TkState) (s : String) : Option Nat :=
  (tk.vocab.find? (fun e => e.1 == s)).map (fun e => e.2)

/-- `list(text[:-1]) + [text[-1] + "</w>"]`: the initial unigrams of a
nonempty coarse token.  (On the empty string the source raises an index
error; the empty case below is unreachable from `tokenize`.) -/
def initAux : Char → List Char → List String
  | c, [] => [String.mk [c] ++ endWord]
  | c, d :: ds => String.mk [c] :: initAux d ds

def initUnigrams (s : String) : List String :=
  match s.data with
  | [] => []
  | c :: cs => initAux c cs

/-- `zip(unigrams, unigrams[1:])`: the adjacent pairs currently present. -/
def bigramsOf (u : List String) : List (String × String) := u.zip u.tail

/-- Strict comparison of ranks where an absent rank acts as positive
infinity, as in the `min` key function of the source. -/
def keyLt : Option Nat → Option Nat → Bool
  | some a, some b => a < b
  | some _, none => true
  | none, _ => false

/-- One comparison step of the `min` scan: keep the incumbent unless the
next pair has a strictly smaller rank. -/
def rkStep (ranks : List ((String × String) × Nat)) (best q : String × String) :
    String × String :=
  if keyLt (rankOf ranks q) (rankOf ranks best) then q else best

/-- `min(unique_bigrams, key=...)`: the first pair attaining the least rank,
scanning the present pairs in order.  (The source iterates a hash set whose
order is unspecified; rank is the sole tie-break key, and which pair wins a
rank tie is irrelevant to every property below.) -/
def minByRank (ranks : List ((String × String) × Nat)) :
    List (String × String) → Option (String × String)
  | [] => none
  | p :: ps => some (ps.foldl (rkStep ranks) p)

/-- One step of the merge pass: the loop body over `zip(unigrams, unigrams[1:])`
with its skip flag. -/
def passFold (bg : String × String) (st : List String × Bool) (ab : String × String) :
    List String × Bool :=
  if st.2 then (st.1, false)
  else if ab = bg then (st.1 ++ [ab.1 ++ ab.2], true)
  else (st.1 ++ [ab.1], false)

/-- After the fold over the adjacent pairs: append the trailing unigram (the
second component of the last pair) unless the final pair was just merged.
(When there are no pairs at all the source would reference an unbound loop
variable; that state is unreachable inside `bpe`, and this embedding
returns the accumulator there.) -/
def passFinish (pairs : List (String × String)) (st : List String × Bool) : List String :=
  if st.2 then st.1
  else
    match pairs.getLast? with
    | some ab => st.1 ++ [ab.2]
    | none => st.1

/-- The single left-to-right merge pass of the source: fold the skip-flagged
loop body over the adjacent pairs, then finish with the trailing unigram. -/
def onePass (bg : String × String) (u : List String) : List String :=
  passFinish (bigramsOf u) ((bigramsOf u).foldl (passFold bg) ([], false))

/-- The merge loop of `bpe`: while adjacent pairs exist, pick the pair of
least rank; stop if it has no assigned rank, otherwise run one merge pass
and repeat.  Each executed pass strictly shrinks the unigram list, so a
fuel equal to the initial length makes the recursion total without
changing the computed value. -/
def bpeLoop (ranks : List ((String × String) × Nat)) : Nat → List String → List String
  | 0, u => u
  | fuel + 1, u =>
    match minByRank ranks (bigramsOf u) with
    | none => u
    | some bg =>
      if rankOf ranks bg = none then u
      else bpeLoop ranks fuel (onePass bg u)

/-- `CLIPTokenizer.bpe`: serve from the cache when possible; otherwise build
the initial unigrams, return them immediately (uncached) when no adjacent
pair exists, and otherwise run the merge loop and memoize its result. -/
def bpe (tk : TkState) (text : String) : CacheVal × TkState :=
  match cacheLookup tk.cache text with
  | some v => (v, tk)
  | none =>
    let u0 := initUnigrams text
    if bigramsOf u0 = [] then (Sum.inr u0, tk)
    else
      let r := bpeLoop tk.bpeRanks u0.length u0
      (Sum.inr r, { tk with cache := (text, Sum.inr r) :: tk.cache })

/-- Iterating a value returned by `bpe` inside the comprehension of
`tokenize`: a list yields its elements, a plain string yields its
characters. -/
def flattenTok : CacheVal → List String
  | Sum.inl s => s.data.map (fun c => String.mk [c])
  | Sum.inr l => l

/-- The comprehension `[self.vocab[t] for t in bpe_tokens]`; a missing
sub-token is a lookup error, modelled as `none`. -/
def lookupAll (tk : TkState) : List String → Option (List Nat)
  | [] => some []
  | t :: ts =>
    match vocabLookup tk t, lookupAll tk ts with
    | some i, some is => some (i :: is)
    | _, _ => none

/-- Optionally prepend the beginning-of-text id. -/
def addBos (tk : TkState) (b : Bool) (ids : List Nat) : Option (List Nat) :=
  if b then (vocabLookup tk bosStr).map (fun x => x :: ids) else some ids

/-- Optionally append the end-of-text id. -/
def addEos (tk : TkState) (b : Bool) (ids : List Nat) : Option (List Nat) :=
  if b then (vocabLookup tk eosStr).map (fun x => ids ++ [x]) else some ids

/-- `CLIPTokenizer.tokenize` on a single string: clean and lower-case, split
into coarse tokens, push each through `bpe` (threading the cache), flatten,
look every sub-token up in the vocabulary and add the optional special ids.
Returns the ids (or `none` on a lookup error) together with the final
tokenizer state. -/
def tokenize (tk : TkState) (text : String) (prependBos appendEos : Bool) :
    Option (List Nat) × TkState :=
  let toks := findall (cleanText text)
  let st := toks.foldl
    (fun (st : TkState × List String) t =>
      let r := bpe st.1 t
      (r.2, st.2 ++ flattenTok r.1)) (tk, [])
  let ids :=
    (lookupAll st.1 st.2).bind fun ids0 =>
      (addBos st.1 prependBos ids0).bind fun ids1 =>
        addEos st.1 appendEos ids1
  (ids, st.1)

/-! ### The concrete tokenizer of the test case in the specification -/

/-- The merge table of the concrete BPE test case: the single pair
`("a", "b</w>")` with rank 0. -/
def ranksC : List ((String × String) × Nat) := [(("a", "b</w>"), 0)]

/-- The eight-entry vocabulary of the concrete BPE test case. -/
def vocabC : List (String × Nat) :=
  [("a", 0), ("b", 1), ("ab", 2), ("a</w>", 3), ("b</w>", 4), ("ab</w>", 5),
   (bosStr, 6), (eosStr, 7)]

/-- The concrete tokenizer instance used by the executable test cases. -/
def tkC : TkState := initTk ranksC vocabC

/-- The string tokenized in the concrete BPE test case. -/
def sAB : String := "ab"

/-- A single-letter coarse token (used to exhibit the uncached early return). -/
def sA : String := "a"

/-- A single space (a whitespace-only input). -/
def sSpace : String := " "

/-- Claim C3: with the specified vocabulary and the single merge
`(a, b</w>) with rank 0`, tokenizing `ab` with both special ids enabled
first forms the unigrams `[a, b</w>]`, merges them into `[ab</w>]`, and
returns the id sequence `[6, 5, 7]`. -/
theorem C3_concrete_tokenize_ab :
    initUnigrams sAB = ["a", "b</w>"]
    ∧ bpeLoop ranksC 2 ["a", "b</w>"] = ["ab</w>"]
    ∧ (tokenize tkC sAB true true).1 = some [6, 5, 7] := by
  refine ⟨by decide, by decide, by decide⟩

/-- Claim C1 (evaluation of the slip): the pre-seeded cache maps the
end-of-text marker to itself as a plain string, so `tokenize` iterates the
marker character by character instead of emitting it atomically; with the
specified vocabulary the per-character lookup fails and no id sequence is
produced, where the specification requires the single id 7 for the marker. -/
theorem C1_special_token_split_into_chars :
    (bpe tkC eosStr).1 = Sum.inl eosStr
    ∧ flattenTok (bpe tkC eosStr).1
        = ["<", "|", "e", "n", "d", "o", "f", "t", "e", "x", "t", "|", ">"]
    ∧ (tokenize tkC eosStr true true).1 = none := by
  refine ⟨by decide, by decide, by decide⟩

/-! ## Claim C4: the memoization cache after a `bpe` call -/

theorem initAux_length : ∀ (c : Char) (cs : List Char), (initAux c cs).length = cs.length + 1 := by
  intro c cs
  induction cs generalizing c with
  | nil => simp [initAux]
  | cons d ds ih => simp [initAux, ih]

theorem initUnigrams_length (s : String) : (initUnigrams s).length = s.length := by
  rw [initUnigrams]
  cases h : s.data with
  | nil => simp [String.length, h]
  | cons c cs => simp [String.length, h, initAux_length]

theorem bigramsOf_ne_nil {u : List String} (h : 2 ≤ u.length) : bigramsOf u ≠ [] := by
  match u with
  | [] => simp at h
  | [a] => simp at h
  | a :: b :: t => simp [bigramsOf]

/-- Claim C4, counterexample to the claim as stated: `bpe` on the
single-character coarse token `a` returns early before the caching line, so
afterwards the cache still has no entry for `a`. -/
theorem C4_single_char_never_cached :
    cacheLookup ((bpe tkC sA).2).cache sA = none ∧ (bpe tkC sA).1 = Sum.inr ["a</w>"] := by
  refine ⟨by decide, by decide⟩

/-- Claim C4 as amended: for every coarse token string of length at least 2,
after `bpe` returns, the cache maps that string to the returned sub-token
value, and a second call returns the same value and state straight from the
cache (no recomputation can be observed).  Length-1 tokens are excluded: for
them the source returns before its caching line. -/
theorem C4_cache_after_bpe (tk : TkState) (text : String) (h : 2 ≤ text.length) :
    cacheLookup ((bpe tk text).2).cache text = some (bpe tk text).1
    ∧ bpe ((bpe tk text).2) text = bpe tk text := by
  cases hc : cacheLookup tk.cache text with
  | some v =>
    have hb : bpe tk text = (v, tk) := by rw [bpe, hc]
    rw [hb]
    exact ⟨hc, by rw [bpe, hc]⟩
  | none =>
    have h2 : ¬ bigramsOf (initUnigrams text) = [] := by
      apply bigramsOf_ne_nil
      rw [initUnigrams_length]
      exact h
    have hb : bpe tk text =
        (Sum.inr (bpeLoop tk.bpeRanks (initUnigrams text).length (initUnigrams text)),
         { tk with cache :=
            (text, Sum.inr (bpeLoop tk.bpeRanks (initUnigrams text).length (initUnigrams text)))
              :: tk.cache }) := by
      rw [bpe, hc]
      simp [h2]
    rw [hb]
    have hlook : cacheLookup
        ((text, Sum.inr (bpeLoop tk.bpeRanks (initUnigrams text).length (initUnigrams text)))
          :: tk.cache) text
        = some (Sum.inr (bpeLoop tk.bpeRanks (initUnigrams text).length (initUnigrams text))) := by
      simp [cacheLookup, List.find?]
    refine ⟨hlook, ?_⟩
    rw [bpe]
    rw [hlook]

/-- Claim C4 witness: the amended cache property at the concrete token `ab`. -/
theorem C4_cache_after_bpe_witness :
    2 ≤ sAB.length
    ∧ (cacheLookup ((bpe tkC sAB).2).cache sAB = some (bpe tkC sAB).1
       ∧ bpe ((bpe tkC sAB).2) sAB = bpe tkC sAB) :=
  ⟨by decide, C4_cache_after_bpe tkC sAB (by decide)⟩

/-! ## Claim C2: the merge loop implements the described greedy algorithm

`mergeAll` is the specification-side description of one merge pass, written
directly from the specification text: scan left to right, merge every
occurrence of exactly the chosen bigram, and let a freshly merged unigram
not participate again in the same pass.  The refinement proof below shows
the zip-and-skip-flag pass of the source computes exactly this function. -/

def mergeAll (bg : String × String) : List String → List String
  | [] => []
  | [a] => [a]
  | a :: b :: t2 =>
    if (a, b) = bg then (a ++ b) :: mergeAll bg t2
    else a :: mergeAll bg (b :: t2)
termination_by l => l.length

theorem bigramsOf_cons_cons (a b : String) (t : List String) :
    bigramsOf (a :: b :: t) = (a, b) :: bigramsOf (b :: t) := rfl

theorem mem_bigramsOf_length {bg : String × String} {u : List String}
    (h : bg ∈ bigramsOf u) : 2 ≤ u.length := by
  match u with
  | [] => simp [bigramsOf] at h
  | [a] => simp [bigramsOf] at h
  | a :: b :: t => simp

theorem mergeAll_length_le (bg : String × String) :
    ∀ (n : Nat) (u : List String), u.length ≤ n → (mergeAll bg u).length ≤ u.length := by
  intro n
  induction n with
  | zero =>
    intro u hu
    match u with
    | [] => simp [mergeAll]
    | a :: t => simp at hu
  | succ m ih =>
    intro u hu
    match u with
    | [] => simp [mergeAll]
    | [a] => simp [mergeAll]
    | a :: b :: t2 =>
      rw [mergeAll]
      split
      · have := ih t2 (by simp at hu; omega)
        simp only [List.length_cons]
        omega
      · have := ih (b :: t2) (by simp at hu ⊢; omega)
        simp only [List.length_cons] at this ⊢
        omega

theorem mergeAll_length_lt (bg : String × String) :
    ∀ (n : Nat) (u : List String), u.length ≤ n → bg ∈ bigramsOf u →
      (mergeAll bg u).length < u.length := by
  intro n
  induction n with
  | zero =>
    intro u hu hmem
    have := mem_bigramsOf_length hmem
    omega
  | succ m ih =>
    intro u hu hmem
    match u with
    | [] => simp [bigramsOf] at hmem
    | [a] => simp [bigramsOf] at hmem
    | a :: b :: t2 =>
      rw [mergeAll]
      split
      · have := mergeAll_length_le bg m t2 (by simp at hu; omega)
        simp only [List.length_cons]
        omega
      · rename_i hne
        rw [bigramsOf_cons_cons] at hmem
        rcases List.mem_cons.mp hmem with heq | hmem2
        · exact absurd heq.symm hne
        · have := ih (b :: t2) (by simp at hu ⊢; omega) hmem2
          simp only [List.length_cons] at this ⊢
          omega

theorem passFinish_cons (p : String × String) (pairs : List (String × String))
    (h : pairs ≠ []) (st : List String × Bool) :
    passFinish (p :: pairs) st = passFinish pairs st := by
  match pairs with
  | [] => exact absurd rfl h
  | q :: qs => simp [passFinish, List.getLast?_cons_cons]

theorem passGo_eq_mergeAll (bg : String × String) :
    ∀ (n : Nat) (u : List String), u.length ≤ n → 2 ≤ u.length → ∀ acc : List String,
      passFinish (bigramsOf u) ((bigramsOf u).foldl (passFold bg) (acc, false))
        = acc ++ mergeAll bg u := by
  intro n
  induction n with
  | zero => intro u hu h2; omega
  | succ m ih =>
    intro u hu h2 acc
    match u with
    | [] => simp at h2
    | [a] => simp at h2
    | a :: b :: t =>
      rw [bigramsOf_cons_cons, List.foldl_cons]
      by_cases hab : (a, b) = bg
      · have hfold1 : passFold bg (acc, false) (a, b) = (acc ++ [a ++ b], true) := by
          simp [passFold, hab]
        rw [hfold1]
        match t with
        | [] =>
          simp only [bigramsOf, List.zip_nil_right, List.tail, List.foldl_nil]
          rw [mergeAll, if_pos hab]
          simp [passFinish, mergeAll]
        | c :: t2 =>
          rw [bigramsOf_cons_cons, List.foldl_cons]
          have hfold2 : passFold bg (acc ++ [a ++ b], true) (b, c) = (acc ++ [a ++ b], false) := by
            simp [passFold]
          rw [hfold2]
          match t2 with
          | [] =>
            simp only [bigramsOf, List.zip_nil_right, List.tail, List.foldl_nil]
            rw [mergeAll, if_pos hab]
            simp [passFinish, mergeAll, List.getLast?_cons_cons]
          | d :: t3 =>
            have hne : bigramsOf (c :: d :: t3) ≠ [] := by
              apply bigramsOf_ne_nil
              simp
            rw [passFinish_cons _ _ (by rw [bigramsOf_cons_cons]; simp)]
            rw [passFinish_cons _ _ hne]
            have := ih (c :: d :: t3) (by simp at hu ⊢; omega) (by simp) (acc ++ [a ++ b])
            rw [this]
            conv_rhs => rw [mergeAll]
            rw [if_pos hab]
            simp
      · have hfold1 : passFold bg (acc, false) (a, b) = (acc ++ [a], false) := by
          simp [passFold, hab]
        rw [hfold1]
        match t with
        | [] =>
          simp only [bigramsOf, List.zip_nil_right, List.tail, List.foldl_nil]
          rw [mergeAll, if_neg hab]
          simp [passFinish, mergeAll]
        | c :: t2 =>
          have hne : bigramsOf (b :: c :: t2) ≠ [] := by
            apply bigramsOf_ne_nil
            simp
          rw [passFinish_cons _ _ hne]
          have := ih (b :: c :: t2) (by simp at hu ⊢; omega) (by simp) (acc ++ [a])
          rw [this]
          conv_rhs => rw [mergeAll]
          rw [if_neg hab]
          simp

theorem onePass_eq_mergeAll (bg : String × String) (u : List String) (h : 2 ≤ u.length) :
    onePass bg u = mergeAll bg u := by
  have := passGo_eq_mergeAll bg u.length u (le_refl _) h []
  simpa [onePass] using this

/-! ### The minimum-rank selection -/

theorem keyLt_irrefl (a : Option Nat) : keyLt a a = false := by
  cases a <;> simp [keyLt]

theorem keyLt_trans {a b c : Option Nat} (h1 : keyLt a b = true) (h2 : keyLt b c = true) :
    keyLt a c = true := by
  cases a <;> cases b <;> cases c <;> simp_all [keyLt]
  all_goals omega

theorem keyLt_false_trans {a b c : Option Nat} (h1 : keyLt a b = false)
    (h2 : keyLt b c = false) : keyLt a c = false := by
  cases a <;> cases b <;> cases c <;> simp_all [keyLt]
  all_goals omega

theorem minFold_mem (ranks : List ((String × String) × Nat)) :
    ∀ (ps : List (String × String)) (p : String × String),
      ps.foldl (rkStep ranks) p ∈ p :: ps := by
  intro ps
  induction ps with
  | nil => intro p; simp
  | cons q qs ih =>
    intro p
    rw [List.foldl_cons]
    by_cases hq : keyLt (rankOf ranks q) (rankOf ranks p) = true
    · have hstep : rkStep ranks p q = q := by rw [rkStep, if_pos hq]
      rw [hstep]
      rcases List.mem_cons.mp (ih q) with h1 | h1
      · simp [h1]
      · simp [h1]
    · have hstep : rkStep ranks p q = p := by rw [rkStep, if_neg hq]
      rw [hstep]
      rcases List.mem_cons.mp (ih p) with h1 | h1
      · simp [h1]
      · simp [h1]

theorem minFold_min (ranks : List ((String × String) × Nat)) :
    ∀ (ps : List (String × String)) (p : String × String),
      keyLt (rankOf ranks p) (rankOf ranks (ps.foldl (rkStep ranks) p)) = false
      ∧ ∀ q ∈ ps,
          keyLt (rankOf ranks q) (rankOf ranks (ps.foldl (rkStep ranks) p)) = false := by
  intro ps
  induction ps with
  | nil => intro p; exact ⟨keyLt_irrefl _, by simp⟩
  | cons q qs ih =>
    intro p
    rw [List.foldl_cons]
    by_cases hq : keyLt (rankOf ranks q) (rankOf ranks p) = true
    · have hstep : rkStep ranks p q = q := by rw [rkStep, if_pos hq]
      rw [hstep]
      obtain ⟨h1, h2⟩ := ih q
      refine ⟨?_, ?_⟩
      · by_contra hp
        have hp' : keyLt (rankOf ranks p)
            (rankOf ranks (qs.foldl (rkStep ranks) q)) = true := by
          revert hp
          cases keyLt (rankOf ranks p) (rankOf ranks (qs.foldl (rkStep ranks) q)) <;> simp
        have := keyLt_trans hq hp'
        rw [h1] at this
        exact Bool.false_ne_true this
      · intro x hx
        rcases List.mem_cons.mp hx with hxq | hxqs
        · exact hxq ▸ h1
        · exact h2 x hxqs
    · have hstep : rkStep ranks p q = p := by
        rw [rkStep, if_neg hq]
      rw [hstep]
      obtain ⟨h1, h2⟩ := ih p
      have hqf : keyLt (rankOf ranks q) (rankOf ranks p) = false := by
        revert hq
        cases keyLt (rankOf ranks q) (rankOf ranks p) <;> simp
      refine ⟨h1, ?_⟩
      intro x hx
      rcases List.mem_cons.mp hx with hxq | hxqs
      · exact hxq ▸ keyLt_false_trans hqf h1
      · exact h2 x hxqs

theorem minByRank_none {ranks : List ((String × String) × Nat)}
    {l : List (String × String)} (h : minByRank ranks l = none) : l = [] := by
  match l with
  | [] => rfl
  | p :: ps => simp [minByRank] at h

theorem minByRank_mem {ranks : List ((String × String) × Nat)}
    {l : List (String × String)} {bg : String × String}
    (h : minByRank ranks l = some bg) : bg ∈ l := by
  match l with
  | [] => simp [minByRank] at h
  | p :: ps =>
    rw [minByRank] at h
    have := minFold_mem ranks ps p
    rwa [Option.some.inj h] at this

theorem minByRank_min {ranks : List ((String × String) × Nat)}
    {l : List (String × String)} {bg : String × String}
    (h : minByRank ranks l = some bg) :
    ∀ p ∈ l, keyLt (rankOf ranks p) (rankOf ranks bg) = false := by
  match l with
  | [] => simp [minByRank] at h
  | p :: ps =>
    rw [minByRank] at h
    obtain ⟨h1, h2⟩ := minFold_min ranks ps p
    intro x hx
    rw [← Option.some.inj h]
    rcases List.mem_cons.mp hx with hxp | hxps
    · exact hxp ▸ h1
    · exact h2 x hxps

/-! ### The loop relation described by the specification -/

/-- The merge-loop behaviour stated by the specification: repeatedly select,
among the adjacent pairs currently present, a pair no other present pair
beats in rank; stop as soon as the selected pair has no assigned rank (or no
pair exists); otherwise replace the unigrams by the result of one
left-to-right non-overlapping merge pass of exactly that pair, and repeat. -/
inductive BpeSpec (ranks : List ((String × String) × Nat)) : List String → List String → Prop
  | stopEmpty (u : List String) (h : bigramsOf u = []) : BpeSpec ranks u u
  | stopNoRank (u : List String) (bg : String × String)
      (hmem : bg ∈ bigramsOf u)
      (hmin : ∀ p ∈ bigramsOf u, keyLt (rankOf ranks p) (rankOf ranks bg) = false)
      (hnone : rankOf ranks bg = none) : BpeSpec ranks u u
  | step (u : List String) (bg : String × String) (r : Nat) (v : List String)
      (hmem : bg ∈ bigramsOf u)
      (hmin : ∀ p ∈ bigramsOf u, keyLt (rankOf ranks p) (rankOf ranks bg) = false)
      (hrank : rankOf ranks bg = some r)
      (hrest : BpeSpec ranks (mergeAll bg u) v) : BpeSpec ranks u v

theorem bpeLoop_spec (ranks : List ((String × String) × Nat)) :
    ∀ (fuel : Nat) (u : List String), u.length ≤ fuel →
      BpeSpec ranks u (bpeLoop ranks fuel u) := by
  intro fuel
  induction fuel with
  | zero =>
    intro u hu
    have hnil : u = [] := List.length_eq_zero.mp (Nat.le_zero.mp hu)
    subst hnil
    exact BpeSpec.stopEmpty [] rfl
  | succ m ih =>
    intro u hu
    cases hm : minByRank ranks (bigramsOf u) with
    | none =>
      have hres : bpeLoop ranks (m + 1) u = u := by
        simp only [bpeLoop, hm]
      rw [hres]
      exact BpeSpec.stopEmpty u (minByRank_none hm)
    | some bg =>
      have hmem := minByRank_mem hm
      have hmin := minByRank_min hm
      cases hr : rankOf ranks bg with
      | none =>
        have hres : bpeLoop ranks (m + 1) u = u := by
          simp only [bpeLoop, hm]
          simp [hr]
        rw [hres]
        exact BpeSpec.stopNoRank u bg hmem hmin hr
      | some r =>
        have h2 : 2 ≤ u.length := mem_bigramsOf_length hmem
        have hop : onePass bg u = mergeAll bg u := onePass_eq_mergeAll bg u h2
        have hlt : (mergeAll bg u).length < u.length :=
          mergeAll_length_lt bg u.length u (le_refl _) hmem
        have hres : bpeLoop ranks (m + 1) u = bpeLoop ranks m (onePass bg u) := by
          simp only [bpeLoop, hm]
          simp [hr]
        rw [hres, hop]
        exact BpeSpec.step u bg r _ hmem hmin hr (ih (mergeAll bg u) (by omega))

/-- Claim C2: for every coarse token of length at least one and every
merge-rank table, the merge loop of `bpe`, run on the initial unigrams of
the token with its fuel bound, realises exactly the behaviour described by
the specification: it repeatedly selects a present pair of minimal rank,
stops when that pair has no assigned rank, and otherwise performs one
left-to-right non-overlapping merge pass of exactly that pair and repeats. -/
theorem C2_bpe_merge_loop_refines_spec (ranks : List ((String × String) × Nat))
    (text : String) (_h : 1 ≤ text.length) :
    BpeSpec ranks (initUnigrams text)
      (bpeLoop ranks (initUnigrams text).length (initUnigrams text)) :=
  bpeLoop_spec ranks (initUnigrams text).length (initUnigrams text) (le_refl _)

/-- Claim C2 witness: the loop relation at the concrete token `ab` and the
concrete one-merge table. -/
theorem C2_bpe_merge_loop_refines_spec_witness :
    1 ≤ sAB.length
    ∧ BpeSpec ranksC (initUnigrams sAB)
        (bpeLoop ranksC (initUnigrams sAB).length (initUnigrams sAB)) :=
  ⟨by decide, C2_bpe_merge_loop_refines_spec ranksC sAB (by decide)⟩

/-! ## Claim C10: inputs on which the pattern finds no coarse token -/

theorem toLower_of_ws {c : Char} (h : c.isWhitespace = true) : c.toLower = c := by
  simp [Char.isWhitespace] at h
  rcases h with ((h | h) | h) | h <;> subst h <;> decide

theorem collapseAux_true_ws :
    ∀ l : List Char, (∀ c ∈ l, c.isWhitespace = true) → collapseAux true l = [] := by
  intro l h
  induction l with
  | nil => rfl
  | cons c cs ih =>
    rw [collapseAux]
    rw [h c (by simp)]
    simp only [if_pos]
    exact ih (fun x hx => h x (by simp [hx]))

theorem collapseWs_all_ws (l : List Char) (h : ∀ c ∈ l, c.isWhitespace = true) :
    collapseWs l = [] ∨ collapseWs l = [' '] := by
  match l with
  | [] => exact Or.inl rfl
  | c :: cs =>
    right
    rw [collapseWs, collapseAux]
    rw [h c (by simp)]
    simp only [if_pos, Bool.false_eq_true, if_false]
    rw [collapseAux_true_ws cs (fun x hx => h x (by simp [hx]))]

theorem tryLits_nonempty :
    ∀ (ls : List (List Char)) (s t r : List Char), (∀ lit ∈ ls, lit ≠ []) →
      tryLits ls s = some (t, r) → t ≠ [] := by
  intro ls
  induction ls with
  | nil => intro s t r _ h; simp [tryLits] at h
  | cons lit ls2 ih =>
    intro s t r hne h
    rw [tryLits] at h
    by_cases hm : litMatches lit s = true
    · rw [if_pos hm] at h
      have : lit = t := (Prod.mk.injEq .. ▸ Option.some.inj h).1
      rw [← this]
      exact hne lit (by simp)
    · rw [if_neg hm] at h
      exact ih s t r (fun x hx => hne x (by simp [hx])) h

theorem matchClasses_nonempty {s t r : List Char} (h : matchClasses s = some (t, r)) :
    t ≠ [] := by
  match s with
  | [] => simp [matchClasses] at h
  | c :: cs =>
    rw [matchClasses] at h
    by_cases ha : c.isAlpha = true
    · rw [if_pos ha] at h
      have ht : List.takeWhile Char.isAlpha (c :: cs) = t :=
        congrArg Prod.fst (Option.some.inj h)
      rw [← ht]
      simp [List.takeWhile, ha]
    · rw [if_neg ha] at h
      by_cases hd : c.isDigit = true
      · rw [if_pos hd] at h
        have ht : [c] = t := congrArg Prod.fst (Option.some.inj h)
        rw [← ht]
        simp
      · rw [if_neg hd] at h
        by_cases ho : isOther c = true
        · rw [if_pos ho] at h
          have ht : List.takeWhile isOther (c :: cs) = t :=
            congrArg Prod.fst (Option.some.inj h)
          rw [← ht]
          simp [List.takeWhile, ho]
        · rw [if_neg ho] at h
          simp at h

theorem matchAt_nonempty {s t r : List Char} (h : matchAt s = some (t, r)) : t ≠ [] := by
  rw [matchAt] at h
  cases htry : tryLits litAlternatives s with
  | some p =>
    rw [htry] at h
    simp only [] at h
    obtain ⟨t2, r2⟩ := p
    have hp : t2 = t ∧ r2 = r := by
      have := Option.some.inj h
      exact ⟨congrArg Prod.fst this, congrArg Prod.snd this⟩
    rw [← hp.1]
    refine tryLits_nonempty litAlternatives s t2 r2 ?_ htry
    decide
  | none =>
    rw [htry] at h
    simp only [] at h
    exact matchClasses_nonempty h

theorem findTokens_succ (fuel : Nat) (s : List Char) :
    findTokens (fuel + 1) s =
      match matchAt s with
      | some tr => tr.1 :: findTokens fuel tr.2
      | none =>
        match s with
        | [] => []
        | _ :: cs => findTokens fuel cs := rfl

theorem findTokens_nonempty :
    ∀ (fuel : Nat) (s t : List Char), t ∈ findTokens fuel s → t ≠ [] := by
  intro fuel
  induction fuel with
  | zero => intro s t h; simp [findTokens] at h
  | succ m ih =>
    intro s t h
    rw [findTokens_succ] at h
    cases hm : matchAt s with
    | some p =>
      obtain ⟨t0, r0⟩ := p
      rw [hm] at h
      simp only [] at h
      rcases List.mem_cons.mp h with h1 | h1
      · exact h1 ▸ matchAt_nonempty hm
      · exact ih r0 t h1
    | none =>
      rw [hm] at h
      simp only [] at h
      match s with
      | [] => simp at h
      | c :: cs => exact ih cs t h

theorem findall_nonempty (l : List Char) (t : String) (h : t ∈ findall l) : t ≠ "" := by
  rw [findall] at h
  rcases List.mem_map.mp h with ⟨t0, ht0, hmk⟩
  have hne := findTokens_nonempty l.length l t0 ht0
  rw [← hmk]
  intro hcon
  exact hne (by simpa using congrArg String.data hcon)

/-- Claim C10: on the empty string or a whitespace-only string the
coarse-split pattern finds no token, `tokenize` with both special ids
enabled returns exactly the two-element sequence of the bos and eos ids
without an error and without touching the tokenizer state; and no coarse
token handed to `bpe` is ever the empty string (every emitted coarse token
is nonempty). -/
theorem C10_whitespace_only_tokenize (tk : TkState) (s : String)
    (hws : ∀ c ∈ s.data, c.isWhitespace = true)
    (b e : Nat) (hb : vocabLookup tk bosStr = some b) (he : vocabLookup tk eosStr = some e) :
    findall (cleanText s) = []
    ∧ tokenize tk s true true = (some [b, e], tk)
    ∧ ∀ (s2 t : String), t ∈ findall (cleanText s2) → t ≠ "" := by
  have hmapws : ∀ c ∈ s.data.map Char.toLower, c.isWhitespace = true := by
    intro c hc
    rcases List.mem_map.mp hc with ⟨c0, hc0, hlc⟩
    have h0 := hws c0 hc0
    rw [← hlc, toLower_of_ws h0]
    exact h0
  have hclean : cleanText s = [] ∨ cleanText s = [' '] := by
    rw [cleanText]
    exact collapseWs_all_ws (s.data.map Char.toLower) hmapws
  have hfind : findall (cleanText s) = [] := by
    rcases hclean with h | h <;> rw [h] <;> decide
  refine ⟨hfind, ?_, ?_⟩
  · rw [tokenize, hfind]
    simp [lookupAll, addBos, addEos, hb, he]
  · intro s2 t ht
    exact findall_nonempty (cleanText s2) t ht

/-- Claim C10 witness: the single-space input with the concrete tokenizer. -/
theorem C10_whitespace_only_tokenize_witness :
    (∀ c ∈ sSpace.data, c.isWhitespace = true)
    ∧ vocabLookup tkC bosStr = some 6
    ∧ vocabLookup tkC eosStr = some 7
    ∧ (findall (cleanText sSpace) = []
       ∧ tokenize tkC sSpace true true = (some [6, 7], tkC)
       ∧ ∀ (s2 t : String), t ∈ findall (cleanText s2) → t ≠ "") :=
  ⟨by decide, by decide, by decide,
   C10_whitespace_only_tokenize tkC sSpace (by decide) 6 7 (by decide) (by decide)⟩

/-! ## Claim C5: end-of-text pooling in the text encoder

`CLIPTextModel.__call__` computes `eot_tokens = mx.argmax(x, axis=-1)`
before embedding, pushes the embeddings through the layer stack and the
final layer norm, and pools `last_hidden_state[mx.arange(B), eot_tokens]`.
The embedding front-end, the masked layers and the final layer norm are
abstracted as functions on batched hidden states; `mx.argmax` returns the
first index of the maximum along the last axis. -/

/-- One scan step of `mx.argmax` along a row: keep the incumbent pair of
index and value unless the next value is strictly greater, so the first
occurrence of the maximum wins. -/
def argmaxGo : List Nat → (Nat × Nat) → Nat → (Nat × Nat)
  | [], best, _ => best
  | v :: vs, best, i =>
    if best.2 < v then argmaxGo vs (i, v) (i + 1) else argmaxGo vs best (i + 1)

/-- `mx.argmax` of one row: index of the first occurrence of the maximum
(on an empty row the source would raise; 0 is returned here and the empty
row is excluded by hypothesis wherever it matters). -/
def argmaxIdx : List Nat → Nat
  | [] => 0
  | v :: vs => (argmaxGo vs (0, v) 1).1

theorem argmaxGo_spec :
    ∀ (vs : List Nat) (bi bv i : Nat),
      (((argmaxGo vs (bi, bv) i).1 = bi ∧ (argmaxGo vs (bi, bv) i).2 = bv)
        ∨ (∃ k, k < vs.length ∧ (argmaxGo vs (bi, bv) i).1 = i + k
            ∧ (argmaxGo vs (bi, bv) i).2 = vs.getD k 0))
      ∧ bv ≤ (argmaxGo vs (bi, bv) i).2
      ∧ (∀ k, k < vs.length → vs.getD k 0 ≤ (argmaxGo vs (bi, bv) i).2) := by
  intro vs
  induction vs with
  | nil =>
    intro bi bv i
    refine ⟨Or.inl ⟨rfl, rfl⟩, le_refl _, ?_⟩
    intro k hk
    simp at hk
  | cons v vs2 ih =>
    intro bi bv i
    rw [argmaxGo]
    by_cases hv : bv < v
    · simp only [if_pos hv]
      obtain ⟨hpos, hle, hall⟩ := ih i v (i + 1)
      refine ⟨?_, ?_, ?_⟩
      · right
        rcases hpos with ⟨h1, h2⟩ | ⟨k, hk, h1, h2⟩
        · exact ⟨0, by simp, by omega, by simpa using h2⟩
        · refine ⟨k + 1, by simpa using hk, by omega, ?_⟩
          rw [h2, List.getD_cons_succ]
      · exact le_trans (le_of_lt hv) hle
      · intro k hk
        cases k with
        | zero => simpa using hle
        | succ k2 =>
          rw [List.getD_cons_succ]
          exact hall k2 (by simpa using hk)
    · simp only [if_neg hv]
      obtain ⟨hpos, hle, hall⟩ := ih bi bv (i + 1)
      refine ⟨?_, hle, ?_⟩
      · rcases hpos with ⟨h1, h2⟩ | ⟨k, hk, h1, h2⟩
        · exact Or.inl ⟨h1, h2⟩
        · refine Or.inr ⟨k + 1, by simpa using hk, by omega, ?_⟩
          rw [h2, List.getD_cons_succ]
      · intro k hk
        cases k with
        | zero =>
          rw [List.getD_cons_zero]
          exact le_trans (Nat.le_of_not_lt hv) hle
        | succ k2 =>
          rw [List.getD_cons_succ]
          exact hall k2 (by simpa using hk)

theorem argmaxIdx_spec (row : List Nat) (h : row ≠ []) :
    argmaxIdx row < row.length
    ∧ (∀ k, k < row.length → row.getD k 0 ≤ row.getD (argmaxIdx row) 0) := by
  match row with
  | [] => exact absurd rfl h
  | v :: vs =>
    obtain ⟨hpos, hle, hall⟩ := argmaxGo_spec vs 0 v 1
    rw [argmaxIdx]
    have hval : (v :: vs).getD (argmaxGo vs (0, v) 1).1 0 = (argmaxGo vs (0, v) 1).2 := by
      rcases hpos with ⟨h1, h2⟩ | ⟨k2, hk2, h1, h2⟩
      · rw [h1, h2, List.getD_cons_zero]
      · rw [h1, h2]
        rw [Nat.add_comm 1 k2, List.getD_cons_succ]
    constructor
    · rcases hpos with ⟨h1, _⟩ | ⟨k, hk, h1, _⟩
      · rw [h1]; simp
      · rw [h1]; simp; omega
    · intro k hk
      rw [hval]
      cases k with
      | zero =>
        rw [List.getD_cons_zero]
        exact hle
      | succ k2 =>
        rw [List.getD_cons_succ]
        exact hall k2 (by simpa using hk)

/-- The text encoder around its pooling step: abstract embedding front-end,
an ordered abstract layer stack (each layer receives the causal mask
internally) and an abstract final layer norm applied per position. -/
structure TextModelA (H : Type) where
  embed : List (List Nat) → List (List H)
  layers : List (List (List H) → List (List H))
  fln : H → H

/-- `CLIPTextModel.__call__`: compute the argmax positions from the raw
token ids, embed, run the layer stack, apply the final layer norm to get
`last_hidden_state`, then gather the hidden state at the precomputed
positions as `pooler_output`.  Returns (last hidden state, pooled). -/
def textForward {H : Type} [Inhabited H] (m : TextModelA H) (x : List (List Nat)) :
    List (List H) × List H :=
  let eot := x.map argmaxIdx
  let h0 := m.embed x
  let h1 := m.layers.foldl (fun acc l => l acc) h0
  let last := h1.map (fun row => row.map m.fln)
  let pooled := (last.zip eot).map (fun p => p.1.getD p.2 default)
  (last, pooled)

/-- Claim C5: the pooled output of each sequence is the final-layer-norm
hidden state at the position of the maximum token id of that sequence: the
gathered index is in range, is the position of a maximal token id (first
such position), and the pooled vector is the last hidden state there. -/
theorem C5_eot_pooling_argmax {H : Type} [Inhabited H] (m : TextModelA H)
    (x : List (List Nat)) (i : Nat)
    (hi : i < x.length) (hB : i < (textForward m x).1.length)
    (hrow : x.getD i [] ≠ []) :
    (textForward m x).2.getD i default
      = ((textForward m x).1.getD i []).getD (argmaxIdx (x.getD i [])) default
    ∧ argmaxIdx (x.getD i []) < (x.getD i []).length
    ∧ ∀ k, k < (x.getD i []).length →
        (x.getD i []).getD k 0 ≤ (x.getD i []).getD (argmaxIdx (x.getD i [])) 0 := by
  obtain ⟨hlt, hmax⟩ := argmaxIdx_spec (x.getD i []) hrow
  refine ⟨?_, hlt, hmax⟩
  simp only [textForward] at hB ⊢
  set last := (m.layers.foldl (fun acc l => l acc) (m.embed x)).map
    (fun row => row.map m.fln) with hlast
  have hlen_eot : i < (x.map argmaxIdx).length := by simpa using hi
  have hlen_zip : i < (last.zip (x.map argmaxIdx)).length := by
    rw [List.length_zip]
    exact lt_min hB hlen_eot
  rw [getD_map_of_lt _ _ i hlen_zip ([], 0) default]
  rw [getD_zip_of_lt last (x.map argmaxIdx) i hB hlen_eot [] 0]
  rw [getD_map_of_lt argmaxIdx x i hi [] 0]

/-- A tiny concrete text-encoder instance over natural-number hidden states:
identity embedding, no layers, identity final layer norm. -/
def mC5 : TextModelA Nat :=
  { embed := fun x => x, layers := [], fln := fun h => h }

/-- The concrete one-sequence batch used in the C5 witness. -/
def xC5 : List (List Nat) := [[3, 9, 2]]

/-- Claim C5 witness: pooling at the concrete batch `[[3, 9, 2]]`. -/
theorem C5_eot_pooling_argmax_witness :
    (0 < xC5.length ∧ 0 < (textForward mC5 xC5).1.length ∧ xC5.getD 0 [] ≠ [])
    ∧ ((textForward mC5 xC5).2.getD 0 default
        = ((textForward mC5 xC5).1.getD 0 []).getD (argmaxIdx (xC5.getD 0 [])) default
       ∧ argmaxIdx (xC5.getD 0 []) < (xC5.getD 0 []).length
       ∧ ∀ k, k < (xC5.getD 0 []).length →
           (xC5.getD 0 []).getD k 0 ≤ (xC5.getD 0 []).getD (argmaxIdx (xC5.getD 0 [])) 0) :=
  ⟨⟨by decide, by decide, by decide⟩,
   C5_eot_pooling_argmax mC5 xC5 0 (by decide) (by decide) (by decide)⟩

/-! ## Joint model arithmetic (CLIPModel.__call__, clip_loss)

Scalar arithmetic is modelled over the exact reals; the two encoder stacks
are abstracted as functions from the modality input to the batch of pooled
outputs.  `mx.linalg.norm(..., axis=-1)`, `mx.exp` and
`mlx.nn.losses.cross_entropy` are external collaborators embedded by their
documented semantics (L2 norm, exponential, per-row
logsumexp-minus-target-logit with mean reduction). -/

noncomputable section

/-- Dot product of two rows (truncating to the common length). -/
def dotR (v w : List ℝ) : ℝ := ((v.zip w).map (fun p => p.1 * p.2)).sum

/-- Sum of squares of a row. -/
def sumSq : List ℝ → ℝ
  | [] => 0
  | x :: t => x * x + sumSq t

/-- `mx.linalg.norm(v, axis=-1)`: the L2 norm of a row. -/
def l2norm (v : List ℝ) : ℝ := Real.sqrt (sumSq v)

/-- `v / LA.norm(v, axis=-1, keepdims=True)`: divide each component of a
row by the L2 norm of the row. -/
def normalizeR (v : List ℝ) : List ℝ := v.map (fun x => x / l2norm v)

/-- `nn.Linear(..., bias=False)` applied to one row: one output per weight
row, by dot product. -/
def linearNoBias (W : List (List ℝ)) (v : List ℝ) : List ℝ := W.map (fun w => dotR v w)

/-- `A @ B.T`: entry (i, j) is the dot product of row i of A and row j of B. -/
def matMulT (A B : List (List ℝ)) : List (List ℝ) :=
  A.map (fun a => B.map (fun b => dotR a b))

/-- Multiply every entry of a matrix by a scalar. -/
def scaleM (c : ℝ) (A : List (List ℝ)) : List (List ℝ) :=
  A.map (fun row => row.map (fun x => c * x))

/-- `.T` of a rectangular matrix: row j of the transpose collects entry j
of every row. -/
def transposeM (A : List (List ℝ)) : List (List ℝ) :=
  (List.range A.headI.length).map (fun j => A.map (fun row => row.getD j 0))

/-- `mx.logsumexp` of one row. -/
def logsumexpR (v : List ℝ) : ℝ := Real.log ((v.map Real.exp).sum)

/-- One row of `mlx.nn.losses.cross_entropy` with an integer target:
logsumexp of the logits minus the logit at the target index. -/
def ceRow (v : List ℝ) (t : Nat) : ℝ := logsumexpR v - v.getD t 0

/-- `cross_entropy(logits, targets, reduction="mean")`: mean over rows. -/
def crossEntropyMeanR (A : List (List ℝ)) (ts : List Nat) : ℝ :=
  (((A.zip ts).map (fun p => ceRow p.1 p.2)).sum) / A.length

/-- `clip_loss`: the mean of the caption loss (`logits_per_text` against
`arange(N)`) and the image loss (`logits_per_image` against `arange(M)`). -/
def clip_lossR (lpt lpi : List (List ℝ)) : ℝ :=
  (crossEntropyMeanR lpt (List.range lpt.length)
    + crossEntropyMeanR lpi (List.range lpi.length)) / 2

/-- `logits_per_text = (text_embeds @ image_embeds.T) * mx.exp(self.logit_scale)`. -/
def logitsPerText (scale : ℝ) (t im : List (List ℝ)) : List (List ℝ) :=
  scaleM (Real.exp scale) (matMulT t im)

/-- The joint model around its projection and loss arithmetic.  The encoder
stacks are abstract functions from the modality input to the batch of
pooled outputs; the projection weights and the log-temperature scalar are
explicit. -/
structure CLIPModelR (TI VI : Type) where
  textEncoder : TI → List (List ℝ)
  visionEncoder : VI → List (List ℝ)
  text_projection : List (List ℝ)
  visual_projection : List (List ℝ)
  logit_scale : ℝ

/-- Projected and L2-normalized text embeddings (one row per sequence),
as computed in the text branch of `CLIPModel.__call__`. -/
def textEmbedsF {TI VI : Type} (m : CLIPModelR TI VI) (ti : TI) : List (List ℝ) :=
  (m.textEncoder ti).map (fun p => normalizeR (linearNoBias m.text_projection p))

/-- Projected and L2-normalized image embeddings (one row per image). -/
def imageEmbedsF {TI VI : Type} (m : CLIPModelR TI VI) (vi : VI) : List (List ℝ) :=
  (m.visionEncoder vi).map (fun p => normalizeR (linearNoBias m.visual_projection p))

/-- The output record of `CLIPModel.__call__` (the raw per-modality encoder
outputs are subsumed by the abstract encoder functions). -/
structure CLIPModelOutputR where
  loss : Option ℝ
  text_embeds : Option (List (List ℝ))
  image_embeds : Option (List (List ℝ))

/-- `CLIPModel.__call__`: encode and normalize whichever modalities are
given; when both are given build the logits and, if requested, the loss. -/
def clipForward {TI VI : Type} (m : CLIPModelR TI VI)
    (input_ids : Option TI) (pixel_values : Option VI) (return_loss : Bool) :
    CLIPModelOutputR :=
  let tE := input_ids.map (fun ti => textEmbedsF m ti)
  let iE := pixel_values.map (fun vi => imageEmbedsF m vi)
  let loss :=
    match tE, iE with
    | some t, some im =>
      if return_loss then
        let lpt := logitsPerText m.logit_scale t im
        some (clip_lossR lpt (transposeM lpt))
      else none
    | _, _ => none
  { loss := loss, text_embeds := tE, image_embeds := iE }

/-- Specification side of the loss: the sum of per-row cross-entropies
against the running diagonal index. -/
def diagCEAux : List (List ℝ) → Nat → ℝ
  | [], _ => 0
  | r :: rs, i => ceRow r i + diagCEAux rs (i + 1)

/-- The average over rows of the cross-entropy of each row against its
diagonal index (caption i matches image i). -/
def diagMeanCE (A : List (List ℝ)) : ℝ := diagCEAux A 0 / A.length

end

theorem zip_range'_ce (A : List (List ℝ)) :
    ∀ s : Nat,
      ((A.zip (List.range' s A.length)).map (fun p => ceRow p.1 p.2)).sum = diagCEAux A s := by
  induction A with
  | nil => intro s; simp [diagCEAux]
  | cons r rs ih =>
    intro s
    rw [List.length_cons, List.range'_succ, List.zip_cons_cons, List.map_cons, List.sum_cons,
      diagCEAux, ih (s + 1)]

theorem crossEntropyMeanR_range (A : List (List ℝ)) :
    crossEntropyMeanR A (List.range A.length) = diagMeanCE A := by
  rw [crossEntropyMeanR, diagMeanCE, List.range_eq_range', zip_range'_ce A 0]

theorem sumSq_nonneg (v : List ℝ) : 0 ≤ sumSq v := by
  induction v with
  | nil => simp [sumSq]
  | cons a t ih =>
    rw [sumSq]
    exact add_nonneg (mul_self_nonneg a) ih

theorem sumSq_div (v : List ℝ) (c : ℝ) :
    sumSq (v.map (fun x => x / c)) = sumSq v / (c * c) := by
  induction v with
  | nil => simp [sumSq]
  | cons a t ih =>
    rw [List.map_cons, sumSq, ih]
    conv_rhs => rw [sumSq]
    rw [add_div, div_mul_div_comm]

theorem l2norm_normalize {v : List ℝ} (h : sumSq v ≠ 0) : l2norm (normalizeR v) = 1 := by
  have hpos : 0 < sumSq v := lt_of_le_of_ne (sumSq_nonneg v) (Ne.symm h)
  have hmul : l2norm v * l2norm v = sumSq v := Real.mul_self_sqrt (le_of_lt hpos)
  rw [l2norm, normalizeR, sumSq_div, hmul, div_self h, Real.sqrt_one]

theorem clipForward_both {TI VI : Type} (m : CLIPModelR TI VI) (ti : TI) (vi : VI)
    (rl : Bool) :
    clipForward m (some ti) (some vi) rl =
      { loss :=
          if rl then
            some (clip_lossR
              (logitsPerText m.logit_scale (textEmbedsF m ti) (imageEmbedsF m vi))
              (transposeM (logitsPerText m.logit_scale (textEmbedsF m ti)
                (imageEmbedsF m vi))))
          else none
        text_embeds := some (textEmbedsF m ti)
        image_embeds := some (imageEmbedsF m vi) } := rfl

theorem clipForward_text {TI VI : Type} (m : CLIPModelR TI VI) (ti : TI)
    (px : Option VI) (rl : Bool) :
    (clipForward m (some ti) px rl).text_embeds = some (textEmbedsF m ti) := rfl

theorem clipForward_image {TI VI : Type} (m : CLIPModelR TI VI) (tx : Option TI)
    (vi : VI) (rl : Bool) :
    (clipForward m tx (some vi) rl).image_embeds = some (imageEmbedsF m vi) := rfl

/-- Claim C6: the logit matrix entry (i, j) is the dot product of the
normalized text embedding i and the normalized image embedding j scaled by
the exponential of the log-temperature; `logits_per_image` is the entrywise
transpose of `logits_per_text`; and with both modalities given and
`return_loss`, the returned loss is the mean of the two diagonal-target
per-row average cross-entropies.  The forward also returns exactly these
normalized embeddings. -/
theorem C6_logits_and_loss {TI VI : Type} (m : CLIPModelR TI VI) (ti : TI) (vi : VI)
    (i j : Nat) (hi : i < (textEmbedsF m ti).length)
    (hj : j < (imageEmbedsF m vi).length) :
    ((logitsPerText m.logit_scale (textEmbedsF m ti) (imageEmbedsF m vi)).getD i []).getD j 0
      = Real.exp m.logit_scale
          * dotR ((textEmbedsF m ti).getD i []) ((imageEmbedsF m vi).getD j [])
    ∧ ((transposeM (logitsPerText m.logit_scale (textEmbedsF m ti)
          (imageEmbedsF m vi))).getD j []).getD i 0
      = ((logitsPerText m.logit_scale (textEmbedsF m ti) (imageEmbedsF m vi)).getD i []).getD j 0
    ∧ (clipForward m (some ti) (some vi) true).loss
      = some ((diagMeanCE (logitsPerText m.logit_scale (textEmbedsF m ti) (imageEmbedsF m vi))
          + diagMeanCE (transposeM (logitsPerText m.logit_scale (textEmbedsF m ti)
              (imageEmbedsF m vi)))) / 2)
    ∧ (clipForward m (some ti) (some vi) true).text_embeds = some (textEmbedsF m ti)
    ∧ (clipForward m (some ti) (some vi) true).image_embeds = some (imageEmbedsF m vi) := by
  set t := textEmbedsF m ti with ht
  set im := imageEmbedsF m vi with him
  have hmmlen : i < (matMulT t im).length := by
    rw [matMulT, List.length_map]
    exact hi
  have hlptlen : i < (logitsPerText m.logit_scale t im).length := by
    rw [logitsPerText, scaleM, List.length_map]
    exact hmmlen
  have hrow : (logitsPerText m.logit_scale t im).getD i []
      = (im.map (fun b => dotR (t.getD i []) b)).map (fun x => Real.exp m.logit_scale * x) := by
    rw [logitsPerText, scaleM]
    rw [getD_map_of_lt _ _ i hmmlen [] []]
    rw [matMulT, getD_map_of_lt _ _ i hi [] []]
  have hentry : ((logitsPerText m.logit_scale t im).getD i []).getD j 0
      = Real.exp m.logit_scale * dotR (t.getD i []) (im.getD j []) := by
    rw [hrow]
    have hjm : j < (im.map (fun b => dotR (t.getD i []) b)).length := by
      rw [List.length_map]; exact hj
    rw [getD_map_of_lt _ _ j hjm 0 0]
    rw [getD_map_of_lt _ _ j hj [] 0]
  refine ⟨hentry, ?_, ?_, ?_, ?_⟩
  · -- transpose relation
    have hheadlen : (logitsPerText m.logit_scale t im).headI.length = im.length := by
      match hmt : t with
      | [] => simp at hi
      | a :: t2 =>
        rw [logitsPerText, matMulT, scaleM]
        simp [List.headI]
    have hjr : j < (List.range (logitsPerText m.logit_scale t im).headI.length).length := by
      rw [List.length_range, hheadlen]
      exact hj
    rw [transposeM, getD_map_of_lt _ _ j hjr 0 []]
    rw [getD_range_of_lt _ j (by rw [hheadlen]; exact hj)]
    rw [getD_map_of_lt _ _ i hlptlen [] 0]
  · -- loss
    rw [ht, him] at hentry ⊢
    rw [clipForward_both]
    simp only [if_pos]
    rw [clip_lossR, crossEntropyMeanR_range, crossEntropyMeanR_range]
  · rw [ht, clipForward_text]
  · rw [him, clipForward_image]

/-- A one-dimensional concrete joint model with unit weights (both encoder
stacks return the single pooled row `[1]`). -/
noncomputable def mUnit : CLIPModelR Unit Unit :=
  { textEncoder := fun _ => [[1]]
    visionEncoder := fun _ => [[1]]
    text_projection := [[1]]
    visual_projection := [[1]]
    logit_scale := 0 }

/-- Claim C6 witness: the logits and loss relations at the concrete
one-dimensional unit model. -/
theorem C6_logits_and_loss_witness :
    (0 < (textEmbedsF mUnit ()).length ∧ 0 < (imageEmbedsF mUnit ()).length)
    ∧ (((logitsPerText mUnit.logit_scale (textEmbedsF mUnit ())
          (imageEmbedsF mUnit ())).getD 0 []).getD 0 0
        = Real.exp mUnit.logit_scale
            * dotR ((textEmbedsF mUnit ()).getD 0 []) ((imageEmbedsF mUnit ()).getD 0 [])
       ∧ ((transposeM (logitsPerText mUnit.logit_scale (textEmbedsF mUnit ())
            (imageEmbedsF mUnit ()))).getD 0 []).getD 0 0
        = ((logitsPerText mUnit.logit_scale (textEmbedsF mUnit ())
            (imageEmbedsF mUnit ())).getD 0 []).getD 0 0
       ∧ (clipForward mUnit (some ()) (some ()) true).loss
        = some ((diagMeanCE (logitsPerText mUnit.logit_scale (textEmbedsF mUnit ())
            (imageEmbedsF mUnit ()))
            + diagMeanCE (transposeM (logitsPerText mUnit.logit_scale (textEmbedsF mUnit ())
                (imageEmbedsF mUnit ())))) / 2)
       ∧ (clipForward mUnit (some ()) (some ()) true).text_embeds
          = some (textEmbedsF mUnit ())
       ∧ (clipForward mUnit (some ()) (some ()) true).image_embeds
          = some (imageEmbedsF mUnit ())) :=
  ⟨⟨by simp [textEmbedsF, mUnit], by simp [imageEmbedsF, mUnit]⟩,
   C6_logits_and_loss mUnit () () 0 0
     (by simp [textEmbedsF, mUnit]) (by simp [imageEmbedsF, mUnit])⟩

/-! ## Claim C7: L2 normalization of the returned embeddings -/

/-- A concrete joint model whose text projection is the zero matrix; its
projected pooled text output is the zero vector. -/
noncomputable def mZeroProj : CLIPModelR Unit Unit :=
  { textEncoder := fun _ => [[1]]
    visionEncoder := fun _ => [[1]]
    text_projection := [[0]]
    visual_projection := [[1]]
    logit_scale := 0 }

/-- Claim C7, counterexample to the claim as stated: with a zero text
projection, the forward call computes the text embedding `[0]` (dividing
the zero vector by its zero norm; the float code produces NaN there), whose
L2 norm is 0, not 1. -/
theorem C7_zero_projection_not_normalized :
    (clipForward mZeroProj (some ()) none false).text_embeds = some [[(0 : ℝ)]]
    ∧ l2norm [(0 : ℝ)] ≠ 1 := by
  constructor
  · rw [clipForward_text]
    simp [textEmbedsF, mZeroProj, normalizeR, linearNoBias, dotR]
  · rw [l2norm]
    simp [sumSq]

/-- Claim C7 as amended: whenever the projected pooled vector of a sequence
or image is nonzero, the corresponding embedding returned by the forward
call is L2-normalized (its norm is exactly 1); at a zero projected vector
the division by the zero norm makes the claim fail as stated. -/
theorem C7_normalization_amended {TI VI : Type} (m : CLIPModelR TI VI) (ti : TI) (vi : VI)
    (i j : Nat) (px : Option VI) (tx : Option TI) (rl rl2 : Bool)
    (hi : i < (m.textEncoder ti).length) (hj : j < (m.visionEncoder vi).length)
    (hpT : sumSq (linearNoBias m.text_projection ((m.textEncoder ti).getD i [])) ≠ 0)
    (hpI : sumSq (linearNoBias m.visual_projection ((m.visionEncoder vi).getD j [])) ≠ 0) :
    (clipForward m (some ti) px rl).text_embeds = some (textEmbedsF m ti)
    ∧ (clipForward m tx (some vi) rl2).image_embeds = some (imageEmbedsF m vi)
    ∧ l2norm ((textEmbedsF m ti).getD i []) = 1
    ∧ l2norm ((imageEmbedsF m vi).getD j []) = 1 := by
  refine ⟨clipForward_text m ti px rl, clipForward_image m tx vi rl2, ?_, ?_⟩
  · rw [textEmbedsF, getD_map_of_lt _ _ i hi [] []]
    exact l2norm_normalize hpT
  · rw [imageEmbedsF, getD_map_of_lt _ _ j hj [] []]
    exact l2norm_normalize hpI

/-- Claim C7 witness: the amended normalization at the concrete unit model. -/
theorem C7_normalization_amended_witness :
    (0 < (mUnit.textEncoder ()).length ∧ 0 < (mUnit.visionEncoder ()).length
     ∧ sumSq (linearNoBias mUnit.text_projection ((mUnit.textEncoder ()).getD 0 [])) ≠ 0
     ∧ sumSq (linearNoBias mUnit.visual_projection ((mUnit.visionEncoder ()).getD 0 [])) ≠ 0)
    ∧ ((clipForward mUnit (some ()) none false).text_embeds = some (textEmbedsF mUnit ())
       ∧ (clipForward mUnit none (some ()) false).image_embeds = some (imageEmbedsF mUnit ())
       ∧ l2norm ((textEmbedsF mUnit ()).getD 0 []) = 1
       ∧ l2norm ((imageEmbedsF mUnit ()).getD 0 []) = 1) :=
  ⟨⟨by simp [mUnit], by simp [mUnit],
    by norm_num [mUnit, linearNoBias, dotR, sumSq],
    by norm_num [mUnit, linearNoBias, dotR, sumSq]⟩,
   C7_normalization_amended mUnit () () 0 0 none none false false
     (by simp [mUnit]) (by simp [mUnit])
     (by norm_num [mUnit, linearNoBias, dotR, sumSq])
     (by norm_num [mUnit, linearNoBias, dotR, sumSq])⟩

/-! ## Claim C9: sequences longer than the position table

`CLIPTextModel._embed` adds `self.position_embedding[:N]` to the token
embeddings of shape [B, N, hidden].  A Python slice clamps, so the slice
has shape [min N maxPos, hidden]; the addition then follows the MLX/numpy
broadcasting rule (align from the right; dimensions must be equal or 1).
The value-level contents are irrelevant to the claim, so the embedding
models the shapes. -/

/-- One broadcast dimension: equal sizes, or a size-1 axis stretching. -/
def broadcastDim (a b : Nat) : Option Nat :=
  if a = b then some a else if a = 1 then some b else if b = 1 then some a else none

/-- Combine aligned dimension pairs (already padded to equal rank). -/
def zipBroadcast : List (Nat × Nat) → Option (List Nat)
  | [] => some []
  | p :: ps => (broadcastDim p.1 p.2).bind fun d => (zipBroadcast ps).map fun ds => d :: ds

/-- Broadcast of two shapes, aligning from the right. -/
def broadcastShapes (s t : List Nat) : Option (List Nat) :=
  let n := max s.length t.length
  let s2 := List.replicate (n - s.length) 1 ++ s
  let t2 := List.replicate (n - t.length) 1 ++ t
  zipBroadcast (s2.zip t2)

/-- Shape semantics of `CLIPTextModel._embed`: the token embeddings have
shape [B, N, hidden], the clamped slice of the position table has shape
[min N maxPos, hidden], and the addition broadcasts them or fails
(`none` models the raised broadcast error). -/
def embedShape (maxPos hidden B N : Nat) : Option (List Nat) :=
  broadcastShapes [B, N, hidden] [min N maxPos, hidden]

/-- Claim C9, counterexample to the claim as stated: with a position table
of length 1 (`max_position_embeddings = 1`) a two-token sequence does not
raise: the single position row broadcasts silently over both positions and
the addition succeeds with the full shape. -/
theorem C9_single_row_table_broadcasts : embedShape 1 1 1 2 = some [1, 2, 1] := by decide

/-- Claim C9 as amended: whenever the sequence length N exceeds
`max_position_embeddings` and the position table has at least two rows, the
addition in `_embed` fails (a detectable broadcast error, so the encoder
never silently truncates), and the slice never indexes the table beyond its
length.  The one-row table is the exception the counterexample exhibits. -/
theorem C9_overlong_sequence_errors (maxPos hidden B N : Nat)
    (hlong : maxPos < N) (h2 : 2 ≤ maxPos) :
    embedShape maxPos hidden B N = none ∧ min N maxPos ≤ maxPos := by
  refine ⟨?_, Nat.min_le_right N maxPos⟩
  have hmin : min N maxPos = maxPos := Nat.min_eq_right (le_of_lt hlong)
  show zipBroadcast [(B, 1), (N, min N maxPos), (hidden, hidden)] = none
  rw [hmin]
  have hB : broadcastDim B 1 = some B := by
    rw [broadcastDim]
    by_cases hb : B = 1
    · rw [if_pos hb, hb]
    · rw [if_neg hb, if_neg hb, if_pos rfl]
  have hN : broadcastDim N maxPos = none := by
    rw [broadcastDim]
    rw [if_neg (by omega), if_neg (by omega), if_neg (by omega)]
  rw [zipBroadcast, hB]
  rw [zipBroadcast, hN]
  simp

/-- Claim C9 witness: a three-token sequence against a two-row position
table fails to broadcast. -/
theorem C9_overlong_sequence_errors_witness :
    (2 < 3 ∧ 2 ≤ 2) ∧ (embedShape 2 1 1 3 = none ∧ min 3 2 ≤ 2) :=
  ⟨⟨by decide, by decide⟩, C9_overlong_sequence_errors 2 1 1 3 (by decide) (by decide)⟩
